import Mathlib

/-!
Shallow embedding of `src/Qaunt.py`: a help-center scraper made of a link
extractor (`get_help_articles`), an article scraper (`scrape_article`), a
greedy text chunker (`chunk_text_blocks`) and a driver (`main`).

Python strings are modelled as Lean `String` (Python `len` is the code-point
count, as is Lean's `String.length`); Python lists as Lean `List`; the loops
of the source as structurally recursive functions carrying the loop state.
Network effects are modelled as oracle parameters returning `Except`, so that
a raised exception is an `Except.error` value.
-/

/-- The module constant `BASE_URL` of `Qaunt.py`. -/
def BASE_URL : String := "https://www.notion.so"

/-- Embedding of Python's substring test `pat in s`, on character lists:
true iff `pat` is a prefix of some suffix of the list. -/
def containsSub (pat : List Char) : List Char → Bool
  | [] => pat.isPrefixOf []
  | c :: t => pat.isPrefixOf (c :: t) || containsSub pat t

/-- Python `pat in s` for strings. -/
def strContains (s pat : String) : Bool := containsSub pat.data s.data

/-- Python `s.lower()`. -/
def strLower (s : String) : String := ⟨s.data.map Char.toLower⟩

/-- Python `s.startswith(pat)`. -/
def strStartsWith (s pat : String) : Bool := pat.data.isPrefixOf s.data

/-- Python `s.strip()`, also standing for `get_text(strip=True)` at the
granularity of one element's text. -/
def strTrim (s : String) : String :=
  ⟨((s.data.dropWhile Char.isWhitespace).reverse.dropWhile Char.isWhitespace).reverse⟩

/-- The filtering/normalizing loop of `get_help_articles` (lines 25-40 of
`Qaunt.py`), abstracted over the list of `href` attributes found in the page:
keep an `href` iff it contains `"/help/"` and its lowercasing does not contain
`"academy"`; prefix `BASE_URL` unless the `href` starts with `"http"`; finally
deduplicate (`list(set(...))`), modelled as `List.dedup` since only the
resulting set is specified. -/
def get_help_articles (hrefs : List String) : List String :=
  ((hrefs.filter (fun href =>
      strContains href "/help/" && !(strContains (strLower href) "academy"))).map
    (fun href => if strStartsWith href "http" then href else BASE_URL ++ href)).dedup

/-- The bullet prefix used at line 85 of `Qaunt.py` (the literal characters of
the source, a mis-encoded bullet symbol followed by a space). -/
def bulletMarker : String := "â€¢ "

/-- `"\n".join l`, the separator/join used both by the chunker
(`current_chunk += "\n" + block`) and by the bullet-list builder. -/
def joinNL : List String → String
  | [] => ""
  | [b] => b
  | b :: c :: rest => b ++ "\n" ++ joinNL (c :: rest)

/-- The article page as seen by `scrape_article`, abstracted from the parsed
HTML of the content container: the raw texts of the heading elements
(`h1`..`h6`, in document order), of the paragraph elements, and the item texts
of each `ul` and each `ol` list element. -/
structure ArticleDoc where
  headings : List String
  paragraphs : List String
  uls : List (List String)
  ols : List (List String)

/-- The heading/paragraph collection loops of `scrape_article` (lines 64-73):
emit the stripped text of each element when non-empty, in order. -/
def collectTexts : List String → List String
  | [] => []
  | t :: rest =>
    if strTrim t = "" then collectTexts rest else strTrim t :: collectTexts rest

/-- The inner loop over `li` items of one `ul` (lines 81-85): collect the
bullet-prefixed stripped text of each item with non-empty stripped text. -/
def bulletItems : List String → List String
  | [] => []
  | li :: rest =>
    if strTrim li = "" then bulletItems rest
    else (bulletMarker ++ strTrim li) :: bulletItems rest

/-- The loop over `ul` elements (lines 78-88): for each `ul`, if its collected
items are non-empty, emit their newline join as one block. -/
def collectBulletBlocks : List (List String) → List String
  | [] => []
  | ul :: rest =>
    if bulletItems ul = [] then collectBulletBlocks rest
    else joinNL (bulletItems ul) :: collectBulletBlocks rest

/-- `scrape_article` (lines 43-91), from the parsed content container: three
passes, headings then paragraphs then `ul` bullet lists. Note the source
iterates `article_container.find_all("ul")` only, so the `ols` component is
never read. -/
def scrape_article (doc : ArticleDoc) : List String :=
  collectTexts doc.headings ++ collectTexts doc.paragraphs ++ collectBulletBlocks doc.uls

/-- Spec-side description (for comparison with `collectTexts`): the trimmed
texts, in order, with the empty ones dropped. -/
def specTrimmedTexts (l : List String) : List String :=
  (l.map strTrim).filter (fun s => decide (s ≠ ""))

/-- Spec-side description of one list element's block: if at least one item's
trimmed text is non-empty, the newline join of the bullet-prefixed non-empty
trimmed item texts; otherwise nothing. -/
def specBulletBlock (lis : List String) : Option String :=
  if (lis.map strTrim).any (fun s => decide (s ≠ "")) then
    some (joinNL (((lis.map strTrim).filter (fun s => decide (s ≠ ""))).map
      (fun s => bulletMarker ++ s)))
  else
    none

/-- The loop of `chunk_text_blocks` (lines 103-124 of `Qaunt.py`): state is
the remaining blocks, `current_chunk` and the accumulated `chunks`; Python's
`if not current_chunk` is the test `current_chunk = ""`. -/
def chunkLoop (max_length : Nat) : List String → String → List String → List String
  | [], current_chunk, chunks =>
    if current_chunk = "" then chunks else chunks ++ [current_chunk]
  | block :: rest, current_chunk, chunks =>
    if current_chunk = "" then
      chunkLoop max_length rest block chunks
    else if current_chunk.length + block.length + 1 < max_length then
      chunkLoop max_length rest (current_chunk ++ "\n" ++ block) chunks
    else
      chunkLoop max_length rest block (chunks ++ [current_chunk])

/-- `chunk_text_blocks(text_blocks, max_length=750)` of `Qaunt.py`. -/
def chunk_text_blocks (text_blocks : List String) (max_length : Nat := 750) : List String :=
  chunkLoop max_length text_blocks "" []

/-- One output record of the driver: the dict
`{"url": url, "chunk_index": i, "text": chunk}` built at lines 143-147. -/
structure Record where
  url : String
  chunk_index : Nat
  text : String
deriving DecidableEq

/-- The records built for one article by `for i, chunk in enumerate(...)`. -/
def recordsFor (url : String) (chunks : List String) : List Record :=
  chunks.enum.map (fun p => { url := url, chunk_index := p.1, text := p.2 })

/-- One iteration of the driver loop (lines 136-149): the fallible
scrape-and-chunk of one article, with the `except` clause turning any raised
error into an empty contribution for that article. -/
def processArticle (fetch : String → Except String (List String)) (url : String) :
    List Record :=
  match fetch url with
  | Except.error _ => []
  | Except.ok blocks => recordsFor url (chunk_text_blocks blocks 750)

/-- The driver loop over all discovered article URLs, accumulating
`all_chunks`. -/
def main_records (fetch : String → Except String (List String)) : List String → List Record
  | [] => []
  | url :: rest => processArticle fetch url ++ main_records fetch rest

/-- `main` (lines 129-153): link discovery is outside the `try`, so a failure
there propagates and aborts the run; otherwise every discovered URL is
processed with per-article error isolation. -/
def main_run (discover : Except String (List String))
    (fetch : String → Except String (List String)) : Except String (List Record) :=
  match discover with
  | Except.error e => Except.error e
  | Except.ok urls => Except.ok (main_records fetch urls)

/-- A concrete scraping oracle used to instantiate the driver theorems:
article `"b"` raises, every other article yields one block. -/
def demoFetch : String → Except String (List String) :=
  fun u => if u = "b" then Except.error "boom" else Except.ok ["blk"]

/-- A concrete article document used to instantiate the scraper theorems. -/
def demoDoc : ArticleDoc :=
  { headings := ["H ", "", "h2"], paragraphs := [" p"], uls := [["x"], []], ols := [] }

/-- A non-empty string has positive length. -/
theorem strLengthPos (s : String) (h : s ≠ "") : 0 < s.length := by
  cases s with
  | mk d =>
    cases d with
    | nil => exact absurd rfl h
    | cons c t => simp [String.length]

/-- Appending one more element to a non-empty group extends the newline join
by one separator and the element. -/
theorem joinNL_append_single (b : String) :
    ∀ (G : List String), G ≠ [] → joinNL (G ++ [b]) = joinNL G ++ "\n" ++ b := by
  intro G
  induction G with
  | nil => intro h; exact absurd rfl h
  | cons a t ih =>
    intro _
    cases t with
    | nil => rfl
    | cons c t2 =>
      have h2 := ih (by simp)
      simp only [List.cons_append, joinNL, List.append_eq] at h2 ⊢
      rw [h2, ← String.append_assoc, ← String.append_assoc]

/-- A member of a group is no longer than the group's newline join. -/
theorem length_le_joinNL (x : String) :
    ∀ (G : List String), x ∈ G → x.length ≤ (joinNL G).length := by
  intro G
  induction G with
  | nil => intro h; cases h
  | cons a t ih =>
    intro hx
    cases t with
    | nil =>
      rcases List.mem_singleton.mp hx with rfl
      exact Nat.le_refl _
    | cons c t2 =>
      rcases List.mem_cons.mp hx with rfl | hmem
      · simp [joinNL, String.length_append]
        omega
      · have := ih hmem
        simp only [joinNL, String.length_append]
        omega

/-- The newline join of a non-empty group of non-empty strings is non-empty. -/
theorem joinNL_ne_empty (G : List String) (hG : G ≠ []) (hx : ∀ x ∈ G, x ≠ "") :
    joinNL G ≠ "" := by
  cases G with
  | nil => exact absurd rfl hG
  | cons a t =>
    have ha : 0 < a.length := strLengthPos a (hx a (List.mem_cons_self a t))
    have hle : a.length ≤ (joinNL (a :: t)).length :=
      length_le_joinNL a _ (List.mem_cons_self a t)
    intro hcontra
    rw [hcontra] at hle
    have hz : ("" : String).length = 0 := rfl
    omega

/-- Invariant of the chunking loop: starting from a non-empty accumulator
group `G` (all blocks non-empty, multi-block accumulators below the bound),
the loop's output extends the already-emitted chunks `P` by the joins of a
partition of `G ++ B` into consecutive non-empty groups, where every
multi-block group joins to length below the bound. -/
theorem chunkLoop_spec (L : Nat) :
    ∀ (B : List String), (∀ b ∈ B, b ≠ "") →
    ∀ (G : List String), G ≠ [] → (∀ x ∈ G, x ≠ "") →
    (2 ≤ G.length → (joinNL G).length < L) →
    ∀ (P : List String),
    ∃ R : List (List String),
      R.flatten = G ++ B ∧
      (∀ g ∈ R, g ≠ []) ∧
      (∀ g ∈ R, 2 ≤ g.length → (joinNL g).length < L) ∧
      chunkLoop L B (joinNL G) P = P ++ R.map joinNL := by
  intro B
  induction B with
  | nil =>
    intro _ G hG hGx hGlen P
    have hne := joinNL_ne_empty G hG hGx
    refine ⟨[G], by simp, by simp [hG], by simpa using hGlen, ?_⟩
    simp [chunkLoop, hne]
  | cons b rest ih =>
    intro hB G hG hGx hGlen P
    have hb : b ≠ "" := hB b (List.mem_cons_self _ _)
    have hrest : ∀ x ∈ rest, x ≠ "" := fun x hx => hB x (List.mem_cons_of_mem _ hx)
    have hne := joinNL_ne_empty G hG hGx
    have hNL : ("\n" : String).length = 1 := rfl
    by_cases hfit : (joinNL G).length + b.length + 1 < L
    · have hjoin : joinNL (G ++ [b]) = joinNL G ++ "\n" ++ b := joinNL_append_single b G hG
      have hGbx : ∀ x ∈ G ++ [b], x ≠ "" := by
        intro x hx
        rcases List.mem_append.mp hx with h | h
        · exact hGx x h
        · rcases List.mem_singleton.mp h with rfl
          exact hb
      have hlen2 : 2 ≤ (G ++ [b]).length → (joinNL (G ++ [b])).length < L := by
        intro _
        rw [hjoin, String.length_append, String.length_append, hNL]
        omega
      obtain ⟨R, hflat, hne2, hlen3, heq⟩ := ih hrest (G ++ [b]) (by simp) hGbx hlen2 P
      refine ⟨R, ?_, hne2, hlen3, ?_⟩
      · rw [hflat]
        simp
      · show chunkLoop L (b :: rest) (joinNL G) P = P ++ R.map joinNL
        simp only [chunkLoop]
        rw [if_neg hne, if_pos hfit, ← hjoin]
        exact heq
    · obtain ⟨R2, hflat, hne2, hlen3, heq⟩ :=
        ih hrest [b] (by simp) (by simpa using hb) (by intro h2; simp at h2)
          (P ++ [joinNL G])
      refine ⟨G :: R2, ?_, ?_, ?_, ?_⟩
      · simp only [List.flatten_cons, hflat]
        simp
      · intro g hg
        rcases List.mem_cons.mp hg with rfl | h
        · exact hG
        · exact hne2 g h
      · intro g hg
        rcases List.mem_cons.mp hg with rfl | h
        · exact hGlen
        · exact hlen3 g h
      · show chunkLoop L (b :: rest) (joinNL G) P = P ++ (G :: R2).map joinNL
        simp only [chunkLoop]
        rw [if_neg hne, if_neg hfit]
        have heq2 : chunkLoop L rest b (P ++ [joinNL G]) =
            P ++ [joinNL G] ++ R2.map joinNL := heq
        rw [heq2]
        simp [List.append_assoc]

/-- The chunker partitions any sequence of non-empty blocks into consecutive
non-empty groups, one group per output chunk, each chunk being the newline
join of its group; multi-block chunks stay below the bound. -/
theorem chunk_partition (B : List String) (L : Nat) (hne : ∀ b ∈ B, b ≠ "") :
    ∃ R : List (List String),
      R.flatten = B ∧ (∀ g ∈ R, g ≠ []) ∧
      (∀ g ∈ R, 2 ≤ g.length → (joinNL g).length < L) ∧
      chunk_text_blocks B L = R.map joinNL := by
  cases B with
  | nil => exact ⟨[], rfl, by simp, by simp, rfl⟩
  | cons b rest =>
    have hb : b ≠ "" := hne b (List.mem_cons_self _ _)
    obtain ⟨R, h1, h2, h3, h4⟩ :=
      chunkLoop_spec L rest (fun x hx => hne x (List.mem_cons_of_mem _ hx)) [b]
        (by simp) (by simpa using hb) (by intro h2; simp at h2) []
    refine ⟨R, by simpa using h1, h2, h3, ?_⟩
    show chunkLoop L (b :: rest) "" [] = R.map joinNL
    simp only [chunkLoop, if_pos rfl]
    have h5 : chunkLoop L rest b [] = [] ++ R.map joinNL := h4
    simpa using h5

/-- Every chunk accumulated by the loop is non-empty, given that the chunks
already emitted are. -/
theorem chunkLoop_all_nonempty (L : Nat) :
    ∀ (B : List String) (cc : String) (P : List String),
      (∀ c ∈ P, c ≠ "") → ∀ c ∈ chunkLoop L B cc P, c ≠ "" := by
  intro B
  induction B with
  | nil =>
    intro cc P hP c hc
    by_cases h : cc = ""
    · simp only [chunkLoop, if_pos h] at hc
      exact hP c hc
    · simp only [chunkLoop, if_neg h] at hc
      rcases List.mem_append.mp hc with h1 | h1
      · exact hP c h1
      · rcases List.mem_singleton.mp h1 with rfl
        exact h
  | cons b rest ih =>
    intro cc P hP c hc
    by_cases h : cc = ""
    · simp only [chunkLoop, if_pos h] at hc
      exact ih b P hP c hc
    · by_cases hfit : cc.length + b.length + 1 < L
      · simp only [chunkLoop, if_neg h, if_pos hfit] at hc
        exact ih _ P hP c hc
      · simp only [chunkLoop, if_neg h, if_neg hfit] at hc
        refine ih b (P ++ [cc]) ?_ c hc
        intro x hx
        rcases List.mem_append.mp hx with h1 | h1
        · exact hP x h1
        · rcases List.mem_singleton.mp h1 with rfl
          exact h

/-- Feeding only empty-string blocks to the loop with an empty accumulator
leaves the emitted chunks unchanged. -/
theorem chunkLoop_all_blank (L : Nat) :
    ∀ (B : List String) (P : List String),
      (∀ b ∈ B, b = "") → chunkLoop L B "" P = P := by
  intro B
  induction B with
  | nil =>
    intro P _
    simp [chunkLoop]
  | cons b rest ih =>
    intro P hall
    have hb : b = "" := hall b (List.mem_cons_self _ _)
    simp only [chunkLoop, if_pos rfl]
    rw [hb]
    exact ih P (fun x hx => hall x (List.mem_cons_of_mem _ hx))

/-- Claim C1: for every non-empty sequence of text blocks (non-empty strings,
per the data model's Text Block invariant) and every bound, the chunks are
the newline joins of a partition of the block sequence into consecutive
non-empty groups — so concatenating the chunks with the join separators
stripped reconstructs the concatenation of the blocks in order, and no block
is split across two chunks, lost, duplicated, or reordered: every input block
appears in exactly one output chunk. -/
theorem chunk_blocks_reconstruction (B : List String) (L : Nat) (_hB : B ≠ [])
    (hne : ∀ b ∈ B, b ≠ "") :
    ∃ R : List (List String), R.flatten = B ∧ (∀ g ∈ R, g ≠ []) ∧
      chunk_text_blocks B L = R.map joinNL := by
  obtain ⟨R, h1, h2, _, h4⟩ := chunk_partition B L hne
  exact ⟨R, h1, h2, h4⟩

/-- Witness for C1 at a concrete input. -/
theorem chunk_blocks_reconstruction_witness :
    ∃ R : List (List String), R.flatten = ["ab", "c"] ∧ (∀ g ∈ R, g ≠ []) ∧
      chunk_text_blocks ["ab", "c"] 10 = R.map joinNL :=
  chunk_blocks_reconstruction ["ab", "c"] 10 (by decide) (by decide)

/-- Counterexample to claim C2 as stated: with blocks `["aaa", "bbbb"]` and
bound 3 the result is `["aaa", "bbbb"]`, where BOTH chunks fail
`length < 3` — not just one — and the failing chunk `"aaa"` does not consist
of an oversized block, since its length equals the bound instead of
exceeding it. -/
theorem chunk_bound_counterexample :
    chunk_text_blocks ["aaa", "bbbb"] 3 = ["aaa", "bbbb"] ∧
    ¬ ("aaa".length < 3) ∧ ¬ ("bbbb".length < 3) ∧ ¬ (3 < "aaa".length) := by
  decide

/-- Claim C2 (amended): for every sequence of non-empty blocks and every
bound, every chunk in the result either has length strictly less than the
bound or consists of a single input block. -/
theorem chunk_bound_amended (B : List String) (L : Nat) (hne : ∀ b ∈ B, b ≠ "") :
    ∀ c ∈ chunk_text_blocks B L, c.length < L ∨ c ∈ B := by
  intro c hc
  obtain ⟨R, h1, h2, h3, h4⟩ := chunk_partition B L hne
  rw [h4, List.mem_map] at hc
  obtain ⟨g, hg, rfl⟩ := hc
  cases g with
  | nil => exact absurd rfl (h2 _ hg)
  | cons x t =>
    cases t with
    | nil =>
      right
      have hx : joinNL [x] = x := rfl
      rw [hx, ← h1]
      exact List.mem_flatten_of_mem hg (List.mem_singleton.mpr rfl)
    | cons y t2 =>
      left
      exact h3 _ hg (by simp)

/-- Witness for the amended C2 at a concrete input and a concrete chunk. -/
theorem chunk_bound_amended_witness :
    ("ab\ncd" : String).length < 10 ∨ ("ab\ncd" : String) ∈ (["ab", "cd"] : List String) :=
  chunk_bound_amended ["ab", "cd"] 10 (by decide) "ab\ncd" (by decide)

/-- Claim C3: a block longer than the bound appears in the output as its own
standalone chunk — in the chunking partition, every group containing it is
exactly the singleton of that block, so it is never dropped, never
force-split, and never combined with another block. -/
theorem chunk_oversized_standalone (B : List String) (L : Nat) (b : String)
    (hne : ∀ x ∈ B, x ≠ "") (hb : b ∈ B) (hover : L < b.length) :
    b ∈ chunk_text_blocks B L ∧
    ∃ R : List (List String), R.flatten = B ∧ chunk_text_blocks B L = R.map joinNL ∧
      ∀ g ∈ R, b ∈ g → g = [b] := by
  obtain ⟨R, h1, h2, h3, h4⟩ := chunk_partition B L hne
  have hsingle : ∀ g ∈ R, b ∈ g → g = [b] := by
    intro g hg hbg
    cases g with
    | nil => cases hbg
    | cons x t =>
      cases t with
      | nil =>
        rcases List.mem_singleton.mp hbg with rfl
        rfl
      | cons y t2 =>
        exfalso
        have hlt := h3 _ hg (by simp)
        have hle := length_le_joinNL b _ hbg
        omega
  constructor
  · rw [← h1, List.mem_flatten] at hb
    obtain ⟨g, hg, hbg⟩ := hb
    have hgb := hsingle g hg hbg
    subst hgb
    rw [h4]
    exact List.mem_map.mpr ⟨[b], hg, rfl⟩
  · exact ⟨R, h1, h4, hsingle⟩

/-- Witness for C3 at a concrete input. -/
theorem chunk_oversized_standalone_witness :
    "aaaa" ∈ chunk_text_blocks ["aaaa"] 3 ∧
    ∃ R : List (List String), R.flatten = ["aaaa"] ∧
      chunk_text_blocks ["aaaa"] 3 = R.map joinNL ∧
      ∀ g ∈ R, "aaaa" ∈ g → g = ["aaaa"] :=
  chunk_oversized_standalone ["aaaa"] 3 "aaaa" (by decide) (by decide) (by decide)

/-- Claim C9: chunking the empty block sequence yields the empty chunk
sequence, for every bound. -/
theorem chunk_empty_input (L : Nat) : chunk_text_blocks [] L = [] := rfl

/-- Claim C10: every chunk the chunker returns is a non-empty string (a chunk
is emitted mid-loop or at the end only when the accumulator is non-empty),
and an input consisting solely of empty strings yields no chunks at all. -/
theorem chunk_chunks_nonempty (B : List String) (L : Nat) :
    (∀ c ∈ chunk_text_blocks B L, c ≠ "") ∧
    ((∀ b ∈ B, b = "") → chunk_text_blocks B L = []) := by
  constructor
  · exact chunkLoop_all_nonempty L B "" [] (by intro c hc; cases hc)
  · intro hall
    exact chunkLoop_all_blank L B [] hall

/-- Witness for C10 at a concrete input. -/
theorem chunk_chunks_nonempty_witness :
    (∀ c ∈ chunk_text_blocks ["", ""] 5, c ≠ "") ∧
    ((∀ b ∈ (["", ""] : List String), b = "") → chunk_text_blocks ["", ""] 5 = []) :=
  chunk_chunks_nonempty ["", ""] 5

/-- Claim C4: a link is accepted into the result set iff its `href` contains
`"/help/"` and does not contain a case-insensitive `"academy"`; relative
`href`s (not beginning with `"http"`) are prefixed with the base origin; the
result is deduplicated; and the spec's concrete scenario yields exactly the
two expected absolute URLs. -/
theorem help_articles_spec :
    (∀ u, u ∈ get_help_articles
        ["/help/foo", "/help/academy/bar", "https://other.site/help/baz", "/other/page"] ↔
      (u = "https://www.notion.so/help/foo" ∨ u = "https://other.site/help/baz")) ∧
    (∀ (hrefs : List String) (u : String),
      u ∈ get_help_articles hrefs ↔
        ∃ href ∈ hrefs, strContains href "/help/" = true ∧
          strContains (strLower href) "academy" = false ∧
          u = if strStartsWith href "http" then href else BASE_URL ++ href) ∧
    (∀ hrefs : List String, (get_help_articles hrefs).Nodup) := by
  refine ⟨?_, ?_, ?_⟩
  · have hcomp : get_help_articles
        ["/help/foo", "/help/academy/bar", "https://other.site/help/baz", "/other/page"] =
        ["https://www.notion.so/help/foo", "https://other.site/help/baz"] := by decide
    intro u
    rw [hcomp]
    simp
  · intro hrefs u
    unfold get_help_articles
    rw [List.mem_dedup, List.mem_map]
    constructor
    · rintro ⟨href, hmem, rfl⟩
      rw [List.mem_filter] at hmem
      obtain ⟨h1, h2⟩ := hmem
      rw [Bool.and_eq_true, Bool.not_eq_true'] at h2
      exact ⟨href, h1, h2.1, h2.2, rfl⟩
    · rintro ⟨href, h1, h2, h3, rfl⟩
      refine ⟨href, ?_, rfl⟩
      rw [List.mem_filter]
      exact ⟨h1, by rw [Bool.and_eq_true, Bool.not_eq_true']; exact ⟨h2, h3⟩⟩
  · intro hrefs
    exact List.nodup_dedup _

/-- Witness for C4: the first expected URL is in the scenario's result. -/
theorem help_articles_spec_witness :
    ("https://www.notion.so/help/foo" : String) ∈ get_help_articles
      ["/help/foo", "/help/academy/bar", "https://other.site/help/baz", "/other/page"] :=
  (help_articles_spec.1 "https://www.notion.so/help/foo").mpr (Or.inl rfl)

/-- The collected heading/paragraph texts are the trimmed texts in order with
the empty ones dropped. -/
theorem collectTexts_eq (l : List String) : collectTexts l = specTrimmedTexts l := by
  induction l with
  | nil => rfl
  | cons t rest ih =>
    simp only [collectTexts, specTrimmedTexts, List.map_cons, List.filter_cons]
    by_cases h : strTrim t = ""
    · simp [h, ih, specTrimmedTexts]
    · simp [h, ih, specTrimmedTexts]

/-- The collected items of one list are the bullet-prefixed non-empty trimmed
item texts in order. -/
theorem bulletItems_eq (l : List String) :
    bulletItems l = ((l.map strTrim).filter (fun s => decide (s ≠ ""))).map
      (fun s => bulletMarker ++ s) := by
  induction l with
  | nil => rfl
  | cons t rest ih =>
    simp only [bulletItems, List.map_cons, List.filter_cons]
    by_cases h : strTrim t = ""
    · simp [h, ih]
    · simp [h, ih]

/-- A list element produces no items iff none of its item texts trims to a
non-empty string. -/
theorem bulletItems_nil_iff (ul : List String) :
    bulletItems ul = [] ↔ ((ul.map strTrim).any (fun s => decide (s ≠ ""))) = false := by
  rw [bulletItems_eq]
  constructor
  · intro h
    have hf := List.map_eq_nil_iff.mp h
    rw [List.filter_eq_nil_iff] at hf
    rw [List.any_eq_false]
    intro x hx
    simpa using hf x hx
  · intro h
    rw [List.any_eq_false] at h
    have hf : (ul.map strTrim).filter (fun s => decide (s ≠ "")) = [] := by
      rw [List.filter_eq_nil_iff]
      intro x hx
      simpa using h x hx
    rw [hf]
    rfl

/-- The bullet-block pass agrees with the spec-side per-list description. -/
theorem collectBulletBlocks_eq (uls : List (List String)) :
    collectBulletBlocks uls = uls.filterMap specBulletBlock := by
  induction uls with
  | nil => rfl
  | cons ul rest ih =>
    by_cases h : bulletItems ul = []
    · have hfalse := (bulletItems_nil_iff ul).mp h
      have hnone : specBulletBlock ul = none := by
        unfold specBulletBlock
        rw [hfalse]
        simp
      rw [List.filterMap_cons, hnone]
      show collectBulletBlocks (ul :: rest) = _
      unfold collectBulletBlocks
      rw [if_pos h]
      exact ih
    · have htrue : ((ul.map strTrim).any (fun s => decide (s ≠ ""))) = true := by
        cases hb : (ul.map strTrim).any (fun s => decide (s ≠ "")) with
        | false => exact absurd ((bulletItems_nil_iff ul).mpr hb) h
        | true => rfl
      have hsome : specBulletBlock ul =
          some (joinNL (((ul.map strTrim).filter (fun s => decide (s ≠ ""))).map
            (fun s => bulletMarker ++ s))) := by
        unfold specBulletBlock
        rw [htrue]
        simp
      rw [List.filterMap_cons, hsome]
      show collectBulletBlocks (ul :: rest) = _
      unfold collectBulletBlocks
      rw [if_neg h, ih, bulletItems_eq]

/-- Counterexample to claim C5 as stated: an article whose content holds one
ordered list with a non-empty item yields NO text block, because the source
iterates `find_all("ul")` only — ordered lists are not collected. -/
theorem scrape_ordered_list_counterexample :
    scrape_article { headings := [], paragraphs := [], uls := [], ols := [["item"]] } = [] ∧
    strTrim "item" ≠ "" := by
  decide

/-- Claim C5 (amended): `scrape_article` emits one text block per UNORDERED
list element having at least one non-empty trimmed item — the newline join of
the bullet-prefixed non-empty trimmed item texts — and emits nothing for a
list whose items all trim to empty; ordered list elements are not collected. -/
theorem scrape_bullet_blocks (doc : ArticleDoc) :
    scrape_article doc =
      specTrimmedTexts doc.headings ++ specTrimmedTexts doc.paragraphs ++
        doc.uls.filterMap specBulletBlock := by
  unfold scrape_article
  rw [collectTexts_eq, collectTexts_eq, collectBulletBlocks_eq]

/-- Every collected heading/paragraph block is non-empty. -/
theorem collectTexts_ne_empty (l : List String) : ∀ b ∈ collectTexts l, b ≠ "" := by
  intro b hb
  rw [collectTexts_eq] at hb
  unfold specTrimmedTexts at hb
  rw [List.mem_filter] at hb
  simpa using hb.2

/-- Every collected bullet item is non-empty (it carries the marker). -/
theorem bulletItems_ne_empty (l : List String) : ∀ x ∈ bulletItems l, x ≠ "" := by
  intro x hx
  rw [bulletItems_eq, List.mem_map] at hx
  obtain ⟨s, _, rfl⟩ := hx
  intro hcontra
  have hlen := congrArg String.length hcontra
  rw [String.length_append] at hlen
  have h4 : bulletMarker.length = 4 := rfl
  have h0 : ("" : String).length = 0 := rfl
  omega

/-- Every emitted bullet-list block is non-empty. -/
theorem collectBulletBlocks_ne_empty (uls : List (List String)) :
    ∀ c ∈ collectBulletBlocks uls, c ≠ "" := by
  induction uls with
  | nil => intro c hc; cases hc
  | cons ul rest ih =>
    intro c hc
    unfold collectBulletBlocks at hc
    by_cases h : bulletItems ul = []
    · rw [if_pos h] at hc
      exact ih c hc
    · rw [if_neg h] at hc
      rcases List.mem_cons.mp hc with rfl | hmem
      · exact joinNL_ne_empty _ h (bulletItems_ne_empty ul)
      · exact ih c hmem

/-- Claim C6: the block sequence of `scrape_article` is category-grouped in
three passes — all heading blocks (trimmed, non-empty, in document order)
before all paragraph blocks before all bullet-list blocks, never interleaved
across categories — and every emitted block is non-empty. -/
theorem scrape_category_grouping (doc : ArticleDoc) :
    scrape_article doc =
      (doc.headings.map strTrim).filter (fun s => decide (s ≠ "")) ++
      (doc.paragraphs.map strTrim).filter (fun s => decide (s ≠ "")) ++
      collectBulletBlocks doc.uls ∧
    ∀ b ∈ scrape_article doc, b ≠ "" := by
  constructor
  · unfold scrape_article
    rw [collectTexts_eq, collectTexts_eq]
    rfl
  · intro b hb
    unfold scrape_article at hb
    rcases List.mem_append.mp hb with h | h
    · rcases List.mem_append.mp h with h1 | h1
      · exact collectTexts_ne_empty _ b h1
      · exact collectTexts_ne_empty _ b h1
    · exact collectBulletBlocks_ne_empty _ b h

/-- Witness for C6 at a concrete article document. -/
theorem scrape_category_grouping_witness :
    scrape_article demoDoc =
      ((demoDoc.headings.map strTrim).filter (fun s => decide (s ≠ ""))) ++
      ((demoDoc.paragraphs.map strTrim).filter (fun s => decide (s ≠ ""))) ++
      collectBulletBlocks demoDoc.uls ∧
    ∀ b ∈ scrape_article demoDoc, b ≠ "" :=
  scrape_category_grouping demoDoc

/-- Every record built for an article carries that article's URL. -/
theorem recordsFor_url (url : String) (chunks : List String) :
    ∀ r ∈ recordsFor url chunks, r.url = url := by
  intro r hr
  simp only [recordsFor, List.mem_map] at hr
  obtain ⟨p, _, rfl⟩ := hr
  rfl

/-- The chunk indices of an article's records are `0, 1, ..., n-1` in order. -/
theorem recordsFor_map_index (url : String) (chunks : List String) :
    (recordsFor url chunks).map Record.chunk_index = List.range chunks.length := by
  unfold recordsFor
  rw [List.map_map]
  have hcomp : (Record.chunk_index ∘ fun p : Nat × String =>
      ({ url := url, chunk_index := p.1, text := p.2 } : Record)) = Prod.fst := rfl
  rw [hcomp]
  show List.map Prod.fst (List.enumFrom 0 chunks) = List.range chunks.length
  rw [List.enumFrom_map_fst, List.range_eq_range']

/-- The texts of an article's records are exactly its chunks, in order. -/
theorem recordsFor_map_text (url : String) (chunks : List String) :
    (recordsFor url chunks).map Record.text = chunks := by
  unfold recordsFor
  rw [List.map_map]
  have hcomp : (Record.text ∘ fun p : Nat × String =>
      ({ url := url, chunk_index := p.1, text := p.2 } : Record)) = Prod.snd := rfl
  rw [hcomp]
  show List.map Prod.snd (List.enumFrom 0 chunks) = chunks
  rw [List.enumFrom_map_snd]

/-- Every record contributed by one driver iteration carries that URL. -/
theorem processArticle_url (fetch : String → Except String (List String)) (url : String) :
    ∀ r ∈ processArticle fetch url, r.url = url := by
  intro r hr
  unfold processArticle at hr
  cases h : fetch url with
  | error e =>
    rw [h] at hr
    cases hr
  | ok blocks =>
    rw [h] at hr
    exact recordsFor_url url _ r hr

/-- Claim C7: an exception while scraping one article is caught and that
article contributes zero records while the other articles' records are
unaffected (with three articles and the second failing, the output is exactly
the first article's records followed by the third's, and no record carries
the failing URL); an exception during link discovery is not caught and
terminates the run. -/
theorem driver_error_isolation (fetch : String → Except String (List String))
    (u1 u2 u3 e e2 : String) (hfail : fetch u2 = Except.error e) :
    main_records fetch [u1, u2, u3] =
      processArticle fetch u1 ++ processArticle fetch u3 ∧
    (u2 ≠ u1 → u2 ≠ u3 → ∀ r ∈ main_records fetch [u1, u2, u3], r.url ≠ u2) ∧
    main_run (Except.error e2) fetch = Except.error e2 := by
  have h2 : processArticle fetch u2 = [] := by
    unfold processArticle
    rw [hfail]
  have heq : main_records fetch [u1, u2, u3] =
      processArticle fetch u1 ++ processArticle fetch u3 := by
    show processArticle fetch u1 ++ (processArticle fetch u2 ++
      (processArticle fetch u3 ++ [])) = _
    rw [h2]
    simp
  refine ⟨heq, ?_, rfl⟩
  intro hne1 hne3 r hr
  rw [heq] at hr
  rcases List.mem_append.mp hr with h | h
  · rw [processArticle_url fetch u1 r h]
    exact hne1.symm
  · rw [processArticle_url fetch u3 r h]
    exact hne3.symm

/-- Witness for C7 with a concrete failing article. -/
theorem driver_error_isolation_witness :
    main_records demoFetch ["a", "b", "c"] =
      processArticle demoFetch "a" ++ processArticle demoFetch "c" ∧
    (("b" : String) ≠ "a" → ("b" : String) ≠ "c" →
      ∀ r ∈ main_records demoFetch ["a", "b", "c"], r.url ≠ "b") ∧
    main_run (Except.error "E") demoFetch = Except.error "E" :=
  driver_error_isolation demoFetch "a" "b" "c" "boom" "E" rfl

/-- Claim C8: for an article whose scrape succeeds with some blocks, the
driver produces exactly one record per chunk, with `chunk_index` values
`0, 1, ..., n-1` assigned in chunk order (restarting from zero for the
article), the chunk texts in order, and the article's URL on every record. -/
theorem chunk_index_enumeration (fetch : String → Except String (List String))
    (url : String) (blocks : List String) (hok : fetch url = Except.ok blocks) :
    (processArticle fetch url).map Record.chunk_index =
      List.range (chunk_text_blocks blocks 750).length ∧
    (processArticle fetch url).map Record.text = chunk_text_blocks blocks 750 ∧
    (processArticle fetch url).length = (chunk_text_blocks blocks 750).length ∧
    ∀ r ∈ processArticle fetch url, r.url = url := by
  have hpa : processArticle fetch url = recordsFor url (chunk_text_blocks blocks 750) := by
    unfold processArticle
    rw [hok]
  refine ⟨?_, ?_, ?_, ?_⟩
  · rw [hpa, recordsFor_map_index]
  · rw [hpa, recordsFor_map_text]
  · rw [hpa]
    simp [recordsFor]
  · rw [hpa]
    exact recordsFor_url url _

/-- Witness for C8 with a concrete successful article. -/
theorem chunk_index_enumeration_witness :
    (processArticle demoFetch "a").map Record.chunk_index =
      List.range (chunk_text_blocks ["blk"] 750).length ∧
    (processArticle demoFetch "a").map Record.text = chunk_text_blocks ["blk"] 750 ∧
    (processArticle demoFetch "a").length = (chunk_text_blocks ["blk"] 750).length ∧
    ∀ r ∈ processArticle demoFetch "a", r.url = "a" :=
  chunk_index_enumeration demoFetch "a" ["blk"] rfl
